import Mathlib

/-!
Verification of the RedditThreadArchiver core: a shallow embedding of the
comment-tree walker and expansion loops (`reddit_client.py`,
`public_reddit_client.py`), the rate-limited request gate's 429 retry logic,
and the QA correlator (`archiver.py` / `extract_qa_pairs`), together with
theorems about the properties the specification states for them.

Python strings are embedded as `List Char` (`Str`); Python's `str.lower`,
`str.startswith`, slicing `s[3:]` and equality become the corresponding
list operations.  Timestamps (`created_utc`) are embedded as integers: the
code only ever compares them.  Python sets of ids are embedded as lists used
only through membership and insertion.
-/

/-- Embedded Python string type. -/
abbrev Str := List Char

/-- Turn a Lean string literal into an embedded Python string. -/
def str (s : String) : Str := s.data

/-- Python `str.lower()` (per-character lowercasing). -/
def strLower (s : Str) : Str := s.map Char.toLower

/-- Model of `models.Comment`: one Reddit comment (dataclass in `models.py`). -/
structure Comment where
  id : Str
  author : Str
  body : Str
  created_utc : Int
  parent_id : Str
  permalink : Str
  score : Int
  is_submitter : Bool
deriving DecidableEq, Repr

/-- Model of `models.QAPair`: a question comment with its list of answers. -/
structure QAPair where
  question : Comment
  answers : List Comment
deriving DecidableEq, Repr

/-- One node of a Reddit listing as consumed by `_process_comment_listing`:
a `t1` comment node (whose `data` fields are stored here after applying the
`data.get(..., default)` defaults the code uses, including the nested
`replies` listing, with the falsy/absent cases collapsed to `[]`), a `more`
node carrying unresolved child ids, or a node of any other kind (which the
walker ignores).  A missing/`None` comment id and the empty id behave
identically in the code (both are falsy), so the id is stored as a plain
string with `[]` for the falsy cases. -/
inductive Thing where
  | comment (id author body : Str) (created_utc : Int) (parent_id permalink : Str)
      (score : Int) (is_submitter : Bool) (replies : List Thing)
  | more (children : List Str)
  | other
deriving Repr

/-- The three mutable accumulators threaded through
`_process_comment_listing`: the flat `comments` output list, the pending
`more_ids` queue, and the `fetched_ids` deduplication set (modelled as a
list used only via membership and insertion). -/
structure WalkState where
  comments : List Comment
  more_ids : List Str
  fetched : List Str
deriving Repr

mutual

/-- The body of the `for thing in children` loop of
`_process_comment_listing` (identical in `RedditClient` and
`PublicRedditClient`): a fresh comment id is marked seen and its `Comment`
appended to the flat list before the walker recurses into the nested
replies; a `more` node appends its not-yet-fetched child ids to the queue. -/
def process_thing (t : Thing) (st : WalkState) : WalkState :=
  match t with
  | Thing.comment id author body created_utc parent_id permalink score is_submitter replies =>
      if id ≠ [] ∧ id ∉ st.fetched then
        process_comment_listing replies
          ⟨st.comments ++ [⟨id, author, body, created_utc, parent_id, permalink, score, is_submitter⟩],
            st.more_ids, id :: st.fetched⟩
      else st
  | Thing.more children =>
      ⟨st.comments, st.more_ids ++ children.filter (fun c => decide (c ≠ [] ∧ c ∉ st.fetched)),
        st.fetched⟩
  | Thing.other => st

/-- Model of `_process_comment_listing`: fold the loop body over the listing's
children in order, threading the accumulators. -/
def process_comment_listing (children : List Thing) (st : WalkState) : WalkState :=
  match children with
  | [] => st
  | t :: rest => process_comment_listing rest (process_thing t st)

end

/-- The overall sequence of listings fed to the tree walker by
`get_all_comments`: the initial top-level comment listing followed by the
`things` listing of each expansion response, all processed against the same
shared accumulators. -/
def walk_all (listings : List (List Thing)) (st : WalkState) : WalkState :=
  listings.foldl (fun s ts => process_comment_listing ts s) st

mutual

/-- Whether a listing node mentions a given id anywhere: as a comment id
(at any depth of its reply subtree) or among a `more` node's child ids.
Used to express that later expansion responses do not re-introduce the
markers of a failed batch. -/
def thing_mentions (t : Thing) (m : Str) : Bool :=
  match t with
  | Thing.comment id _ _ _ _ _ _ _ replies => decide (id = m) || listing_mentions replies m
  | Thing.more children => decide (m ∈ children)
  | Thing.other => false

/-- Whether any node of a listing mentions the given id. -/
def listing_mentions (ts : List Thing) (m : Str) : Bool :=
  match ts with
  | [] => false
  | t :: rest => thing_mentions t m || listing_mentions rest m

end

/-- An outbound HTTP request as issued by `_request`: the code re-issues the
*same* method/endpoint/parameters on retry, so one opaque value suffices. -/
structure Request where
  method : Str
  endpoint : Str
deriving DecidableEq, Repr

/-- One scripted response of the remote server to `_request`. -/
inductive Resp where
  | ok (body : Str)
  | tooMany (retryAfter : Option Nat)
  | httpErr (code : Nat)
deriving DecidableEq, Repr

/-- What `_request` ends in: a decoded 200 body, a raised exception for a
non-200/non-429 status, or the model artifact of running out of scripted
responses. -/
inductive RespOutcome where
  | success (body : Str)
  | apiError (code : Nat)
  | outOfScript
deriving DecidableEq, Repr

/-- Model of `RedditClient._request` / `PublicRedditClient._request` run against a
script of server responses, consuming one response per issued request.
Returns the outcome, the list of requests issued (each entry one network
call, all identical to `req`), and the list of sleep durations performed for
429 handling.  On a 429 the code reads `Retry-After` (defaulting to 60 when
the header is absent), sleeps that long, and re-issues the identical
request by recursing. -/
def run_request (req : Request) : List Resp → RespOutcome × List Request × List Nat
  | [] => (RespOutcome.outOfScript, [], [])
  | Resp.ok b :: _ => (RespOutcome.success b, [req], [])
  | Resp.httpErr c :: _ => (RespOutcome.apiError c, [req], [])
  | Resp.tooMany ra :: rest =>
      let r := run_request req rest
      (r.1, req :: r.2.1, ra.getD 60 :: r.2.2)

/-- One scripted per-batch outcome of the authenticated expansion loop in
`RedditClient.get_all_comments`: the expansion call succeeded and its
response carried the `json`/`data` envelope with a `things` listing, it
succeeded without the envelope, or it raised (any exception, including the
one `_request` raises on a non-200 status). -/
inductive AuthResp where
  | ok (things : List Thing)
  | okNoEnvelope
  | exn
deriving Repr

/-- The `while more_ids:` expansion loop of `RedditClient.get_all_comments`,
run against a finite script of per-batch outcomes (the loop stops when the
script is exhausted — a model artifact standing for any finite interaction
window).  Each iteration pops a batch of up to 100 marker ids; a raised
expansion error is caught, logged as a warning and the loop simply proceeds
to the next batch, the popped markers never being put back. -/
def auth_expand (script : List AuthResp) (st : WalkState) : WalkState :=
  match script with
  | [] => st
  | r :: rest =>
      if st.more_ids = [] then st
      else
        let st1 : WalkState := ⟨st.comments, st.more_ids.drop 100, st.fetched⟩
        match r with
        | AuthResp.exn => auth_expand rest st1
        | AuthResp.okNoEnvelope => auth_expand rest st1
        | AuthResp.ok things => auth_expand rest (process_comment_listing things st1)

/-- One scripted per-batch outcome of the public expansion loop in
`PublicRedditClient.get_all_comments`: a 200 response whose JSON carries
the `json`/`data` envelope, a 200 response without it, a non-200 status,
or a raised exception. -/
inductive PubResp where
  | ok (things : List Thing)
  | okNoEnvelope
  | httpFail
  | exn
deriving Repr

/-- Result of the public expansion loop: the final accumulators, the number
of expansion batches issued (one per `session.get` call), and the final
value of the `expansions_done` counter. -/
structure PubOut where
  state : WalkState
  issued : Nat
  processed : Nat
deriving Repr

/-- The `while more_ids and expansions_done < max_expansions:` loop of
`PublicRedditClient.get_all_comments` (`max_expansions = 20`), run against
an arbitrary (possibly adversarial, infinite) oracle of per-batch outcomes;
`k` indexes the oracle, `done` is the current `expansions_done`.  Each
iteration pops a batch of up to 100 markers and issues one request.  A
non-200 status or a raised exception breaks out of the loop; a 200 response
without the `json`/`data` envelope neither processes anything nor increments
`expansions_done`; a 200 response with the envelope is fed to the tree
walker and increments `expansions_done`.  Totality of this definition is
the loop's termination, proved for every oracle. -/
def public_expand (oracle : Nat → PubResp) (k : Nat) (st : WalkState) (done : Nat) : PubOut :=
  if h : st.more_ids = [] ∨ 20 ≤ done then ⟨st, 0, done⟩
  else
    let st1 : WalkState := ⟨st.comments, st.more_ids.drop 100, st.fetched⟩
    match oracle k with
    | PubResp.httpFail => ⟨st1, 1, done⟩
    | PubResp.exn => ⟨st1, 1, done⟩
    | PubResp.okNoEnvelope =>
        let r := public_expand oracle (k + 1) st1 done
        ⟨r.state, r.issued + 1, r.processed⟩
    | PubResp.ok things =>
        let r := public_expand oracle (k + 1) (process_comment_listing things st1) (done + 1)
        ⟨r.state, r.issued + 1, r.processed⟩
termination_by (20 - done, st.more_ids.length)
decreasing_by
  · apply Prod.Lex.right
    have hne : st.more_ids ≠ [] := fun hx => h (Or.inl hx)
    have : 0 < st.more_ids.length := List.length_pos.mpr hne
    simp only [List.length_drop]
    omega
  · apply Prod.Lex.left
    have : done < 20 := by omega
    omega

/-- Model of `PublicRedditClient.get_all_comments` after the initial listing walk:
the loop's result is the flat comment list only; pending markers left when
the loop stops are discarded. -/
def public_get_all_comments (initial : List Thing) (oracle : Nat → PubResp) : List Comment :=
  (public_expand oracle 0 (process_comment_listing initial ⟨[], [], []⟩) 0).state.comments

/-- The `comment_map` dict built by `extract_qa_pairs`
(`comment_map[comment.id] = comment` over the comment list in order, so a
later comment with the same id overwrites an earlier one), read through
`parent_comment_id in comment_map` / `comment_map[parent_comment_id]`. -/
def comment_map_find (comments : List Comment) (cid : Str) : Option Comment :=
  (comments.filter (fun c => decide (c.id = cid))).getLast?

/-- The `existing = next((qa for qa in qa_pairs if qa.question.id == parent.id), None)`
step of `extract_qa_pairs`: append the answer to the first group whose
question id matches, or append a fresh group at the end when none does. -/
def add_answer (pairs : List QAPair) (parent : Comment) (c : Comment) : List QAPair :=
  match pairs with
  | [] => [⟨parent, [c]⟩]
  | qa :: rest =>
      if qa.question.id = parent.id then ⟨qa.question, qa.answers ++ [c]⟩ :: rest
      else qa :: add_answer rest parent c

/-- The body of the `for comment in submission.comments` loop of
`RedditArchiver.extract_qa_pairs`: the author gate (`comment.author and
comment.author.lower() in answer_authors_lower` — a falsy/empty author fails
the gate before the membership test), the deleted/removed body filters on
the answer and on its parent (skipped when `include_deleted`), the
`parent_id.startswith("t1_")` / `"t3_"` dispatch (`t3_` is a `pass`, any
other prefix falls through doing nothing), the `parent_id[3:]` lookup in
`comment_map`, and the append-or-create group step. -/
def qa_step (comments : List Comment) (answer_authors_lower : List Str) (include_deleted : Bool)
    (qa_pairs : List QAPair) (c : Comment) : List QAPair :=
  if c.author ≠ [] ∧ strLower c.author ∈ answer_authors_lower then
    if ¬include_deleted ∧ (c.body = str "[deleted]" ∨ c.body = str "[removed]") then qa_pairs
    else if (str "t1_").isPrefixOf c.parent_id then
      match comment_map_find comments (c.parent_id.drop 3) with
      | some parent =>
          if ¬include_deleted ∧ (parent.body = str "[deleted]" ∨ parent.body = str "[removed]") then
            qa_pairs
          else add_answer qa_pairs parent c
      | none => qa_pairs
    else qa_pairs
  else qa_pairs

/-- Sort key order of `qa_pairs.sort(key=lambda qa: qa.question.created_utc)`. -/
def qa_le (a b : QAPair) : Prop := a.question.created_utc ≤ b.question.created_utc

/-- Sort key order of `qa.answers.sort(key=lambda a: a.created_utc)`. -/
def ans_le (a b : Comment) : Prop := a.created_utc ≤ b.created_utc

instance : DecidableRel qa_le := fun a b => inferInstanceAs (Decidable (_ ≤ _))

instance : DecidableRel ans_le := fun a b => inferInstanceAs (Decidable (_ ≤ _))

instance : IsTotal QAPair qa_le := ⟨fun a b => le_total a.question.created_utc b.question.created_utc⟩

instance : IsTrans QAPair qa_le := ⟨fun _ _ _ hab hbc => le_trans hab hbc⟩

instance : IsTotal Comment ans_le := ⟨fun a b => le_total a.created_utc b.created_utc⟩

instance : IsTrans Comment ans_le := ⟨fun _ _ _ hab hbc => le_trans hab hbc⟩

/-- Model of `RedditArchiver.extract_qa_pairs`: normalize the target authors to lower
case, run the collection loop over the comments in order, then sort the
groups ascending by the question's timestamp and each group's answers
ascending by their timestamps (Python's `list.sort` is a stable ascending
sort by the key; `List.insertionSort` with the same key order is used
here). -/
def extract_qa_pairs (comments : List Comment) (answer_authors : List Str)
    (include_deleted : Bool) : List QAPair :=
  let answer_authors_lower := answer_authors.map strLower
  let pairs := comments.foldl (qa_step comments answer_authors_lower include_deleted) []
  (List.insertionSort qa_le pairs).map
    (fun qa => ⟨qa.question, List.insertionSort ans_le qa.answers⟩)

/-- Invariant of the walker accumulators: the flat comment list holds no
duplicate ids and every id already appended is recorded in the
deduplication set. -/
def WalkInv (st : WalkState) : Prop :=
  (st.comments.map Comment.id).Nodup ∧ ∀ c ∈ st.comments, c.id ∈ st.fetched

mutual

theorem process_thing_spec (t : Thing) (st : WalkState) :
    (∃ new, (process_thing t st).comments = st.comments ++ new ∧
        ∀ c ∈ new, c.id ∉ st.fetched) ∧
    (∀ i, i ∈ st.fetched → i ∈ (process_thing t st).fetched) ∧
    (WalkInv st → WalkInv (process_thing t st)) := by
  cases t with
  | comment id author body cu pid pl sc sub replies =>
      by_cases hg : id ≠ [] ∧ id ∉ st.fetched
      · have heq : process_thing (Thing.comment id author body cu pid pl sc sub replies) st
            = process_comment_listing replies
                ⟨st.comments ++ [⟨id, author, body, cu, pid, pl, sc, sub⟩],
                  st.more_ids, id :: st.fetched⟩ := by
          rw [process_thing, if_pos hg]
        rw [heq]
        obtain ⟨⟨new1, hdec1, hfresh1⟩, hmono1, hinv1⟩ :=
          process_listing_spec replies
            ⟨st.comments ++ [⟨id, author, body, cu, pid, pl, sc, sub⟩],
              st.more_ids, id :: st.fetched⟩
        refine ⟨⟨⟨id, author, body, cu, pid, pl, sc, sub⟩ :: new1, ?_, ?_⟩, ?_, ?_⟩
        · simpa using hdec1
        · intro c hc
          rcases List.mem_cons.mp hc with h | h
          · subst h; exact hg.2
          · intro hmem
            exact hfresh1 c h (List.mem_cons_of_mem _ hmem)
        · intro i hi
          exact hmono1 i (List.mem_cons_of_mem _ hi)
        · intro hinv
          refine hinv1 ⟨?_, ?_⟩
          · simp only [List.map_append, List.map_cons, List.map_nil]
            rw [List.nodup_append]
            refine ⟨hinv.1, List.nodup_singleton _, ?_⟩
            intro a ha hb
            simp only [List.mem_singleton] at hb
            subst hb
            rcases List.mem_map.mp ha with ⟨c, hc, hcid⟩
            exact hg.2 (hcid ▸ hinv.2 c hc)
          · intro c hc
            rcases List.mem_append.mp hc with h | h
            · exact List.mem_cons_of_mem _ (hinv.2 c h)
            · simp only [List.mem_singleton] at h
              subst h
              exact List.mem_cons_self _ _
      · have heq : process_thing (Thing.comment id author body cu pid pl sc sub replies) st = st := by
          rw [process_thing, if_neg hg]
        rw [heq]
        exact ⟨⟨[], by simp, by simp⟩, fun i hi => hi, fun h => h⟩
  | more children =>
      have heq : process_thing (Thing.more children) st
          = ⟨st.comments,
              st.more_ids ++ children.filter (fun c => decide (c ≠ [] ∧ c ∉ st.fetched)),
              st.fetched⟩ := by
        rw [process_thing]
      rw [heq]
      exact ⟨⟨[], by simp, by simp⟩, fun i hi => hi, fun h => h⟩
  | other =>
      have heq : process_thing Thing.other st = st := by rw [process_thing]
      rw [heq]
      exact ⟨⟨[], by simp, by simp⟩, fun i hi => hi, fun h => h⟩

theorem process_listing_spec (ts : List Thing) (st : WalkState) :
    (∃ new, (process_comment_listing ts st).comments = st.comments ++ new ∧
        ∀ c ∈ new, c.id ∉ st.fetched) ∧
    (∀ i, i ∈ st.fetched → i ∈ (process_comment_listing ts st).fetched) ∧
    (WalkInv st → WalkInv (process_comment_listing ts st)) := by
  cases ts with
  | nil =>
      have heq : process_comment_listing [] st = st := by rw [process_comment_listing]
      rw [heq]
      exact ⟨⟨[], by simp, by simp⟩, fun i hi => hi, fun h => h⟩
  | cons t rest =>
      have heq : process_comment_listing (t :: rest) st
          = process_comment_listing rest (process_thing t st) := by
        rw [process_comment_listing]
      rw [heq]
      obtain ⟨⟨new1, hdec1, hfresh1⟩, hmono1, hinv1⟩ := process_thing_spec t st
      obtain ⟨⟨new2, hdec2, hfresh2⟩, hmono2, hinv2⟩ :=
        process_listing_spec rest (process_thing t st)
      refine ⟨⟨new1 ++ new2, ?_, ?_⟩, ?_, ?_⟩
      · rw [hdec2, hdec1, List.append_assoc]
      · intro c hc
        rcases List.mem_append.mp hc with h | h
        · exact hfresh1 c h
        · intro hmem
          exact hfresh2 c h (hmono1 _ hmem)
      · intro i hi
        exact hmono2 i (hmono1 i hi)
      · intro hinv
        exact hinv2 (hinv1 hinv)

end

/-- Composition over `walk_all` of the per-listing spec: the flat list only
grows, the grown part has ids outside the initial deduplication set, the
set only grows, and the invariant is preserved. -/
theorem walk_all_spec (listings : List (List Thing)) (st : WalkState) :
    (∃ new, (walk_all listings st).comments = st.comments ++ new ∧
        ∀ c ∈ new, c.id ∉ st.fetched) ∧
    (∀ i, i ∈ st.fetched → i ∈ (walk_all listings st).fetched) ∧
    (WalkInv st → WalkInv (walk_all listings st)) := by
  induction listings generalizing st with
  | nil =>
      exact ⟨⟨[], by simp [walk_all], by simp⟩, fun i hi => by simpa [walk_all] using hi,
        fun h => by simpa [walk_all] using h⟩
  | cons ts rest ih =>
      have heq : walk_all (ts :: rest) st = walk_all rest (process_comment_listing ts st) := by
        simp [walk_all]
      rw [heq]
      obtain ⟨⟨new1, hdec1, hfresh1⟩, hmono1, hinv1⟩ := process_listing_spec ts st
      obtain ⟨⟨new2, hdec2, hfresh2⟩, hmono2, hinv2⟩ := ih (process_comment_listing ts st)
      refine ⟨⟨new1 ++ new2, ?_, ?_⟩, ?_, ?_⟩
      · rw [hdec2, hdec1, List.append_assoc]
      · intro c hc
        rcases List.mem_append.mp hc with h | h
        · exact hfresh1 c h
        · intro hmem
          exact hfresh2 c h (hmono1 _ hmem)
      · intro i hi
        exact hmono2 i (hmono1 i hi)
      · intro hinv
        exact hinv2 (hinv1 hinv)

/-- C1: for every sequence of listings fed to the tree walker over shared
accumulators satisfying the deduplication invariant, the resulting flat
comment collection has no duplicate ids, every collected id is in the
seen set, and no comment whose id was already in the seen set at the start
is ever appended (any such comment in the result was already present). -/
theorem walker_no_duplicate_ids (listings : List (List Thing)) (st : WalkState)
    (h1 : (st.comments.map Comment.id).Nodup)
    (h2 : ∀ c ∈ st.comments, c.id ∈ st.fetched) :
    (((walk_all listings st).comments.map Comment.id).Nodup) ∧
    (∀ c ∈ (walk_all listings st).comments, c.id ∈ (walk_all listings st).fetched) ∧
    (∀ i ∈ st.fetched, ∀ c ∈ (walk_all listings st).comments, c.id = i → c ∈ st.comments) := by
  obtain ⟨⟨new, hdec, hfresh⟩, hmono, hinv⟩ := walk_all_spec listings st
  have hres : WalkInv (walk_all listings st) := hinv ⟨h1, h2⟩
  refine ⟨hres.1, hres.2, ?_⟩
  intro i hi c hc hcid
  rw [hdec] at hc
  rcases List.mem_append.mp hc with h | h
  · exact h
  · exact absurd (hcid ▸ hi) (hfresh c h)

/-- A constructed tree in which comment id `c2` is reachable both as a
nested reply of `c1` in the initial listing and directly from a second
(expansion-response) listing. -/
def dupPathListings : List (List Thing) :=
  [[Thing.comment (str "c1") (str "alice") (str "hello") 1 (str "t3_sub") (str "") 0 false
      [Thing.comment (str "c2") (str "bob") (str "reply") 2 (str "t1_c1") (str "") 0 false []]],
    [Thing.comment (str "c2") (str "bob") (str "reply") 2 (str "t1_c1") (str "") 0 false []]]

/-- Witness for C1 at a concrete duplicate-path input. -/
theorem walker_no_duplicate_ids_w :
    (((walk_all dupPathListings ⟨[], [], []⟩).comments.map Comment.id).Nodup) ∧
    (∀ c ∈ (walk_all dupPathListings ⟨[], [], []⟩).comments,
        c.id ∈ (walk_all dupPathListings ⟨[], [], []⟩).fetched) ∧
    (∀ i ∈ ([] : List Str), ∀ c ∈ (walk_all dupPathListings ⟨[], [], []⟩).comments,
        c.id = i → c ∈ ([] : List Comment)) :=
  walker_no_duplicate_ids dupPathListings ⟨[], [], []⟩ (by simp) (by simp)

/-- C8: a comment node with a fresh, non-empty id is appended to the flat
collection first and only then is its nested reply listing walked: the
resulting state is exactly the reply walk started from the state holding
the new `Comment`, and in the flat collection the new comment sits right
after all previously collected comments, before everything discovered in
its own reply subtree. -/
theorem comment_appended_before_replies (id author body : Str) (cu : Int)
    (pid pl : Str) (sc : Int) (sub : Bool) (replies : List Thing) (st : WalkState)
    (hid : id ≠ []) (hfresh : id ∉ st.fetched) :
    process_thing (Thing.comment id author body cu pid pl sc sub replies) st
      = process_comment_listing replies
          ⟨st.comments ++ [⟨id, author, body, cu, pid, pl, sc, sub⟩],
            st.more_ids, id :: st.fetched⟩ ∧
    ∃ tail, (process_thing (Thing.comment id author body cu pid pl sc sub replies) st).comments
        = st.comments ++ ⟨id, author, body, cu, pid, pl, sc, sub⟩ :: tail := by
  have heq : process_thing (Thing.comment id author body cu pid pl sc sub replies) st
      = process_comment_listing replies
          ⟨st.comments ++ [⟨id, author, body, cu, pid, pl, sc, sub⟩],
            st.more_ids, id :: st.fetched⟩ := by
    rw [process_thing, if_pos ⟨hid, hfresh⟩]
  refine ⟨heq, ?_⟩
  obtain ⟨⟨new, hdec, -⟩, -, -⟩ :=
    process_listing_spec replies
      ⟨st.comments ++ [⟨id, author, body, cu, pid, pl, sc, sub⟩],
        st.more_ids, id :: st.fetched⟩
  refine ⟨new, ?_⟩
  rw [heq, hdec]
  simp

/-- Witness for C8 at a concrete comment node with a nested reply. -/
theorem comment_appended_before_replies_w :
    process_thing (Thing.comment (str "c1") (str "alice") (str "hello") 1 (str "t3_sub")
        (str "") 0 false
        [Thing.comment (str "c2") (str "bob") (str "reply") 2 (str "t1_c1") (str "") 0 false []])
        ⟨[], [], []⟩
      = process_comment_listing
          [Thing.comment (str "c2") (str "bob") (str "reply") 2 (str "t1_c1") (str "") 0 false []]
          ⟨[] ++ [⟨str "c1", str "alice", str "hello", 1, str "t3_sub", str "", 0, false⟩],
            [], str "c1" :: []⟩ ∧
    ∃ tail, (process_thing (Thing.comment (str "c1") (str "alice") (str "hello") 1 (str "t3_sub")
        (str "") 0 false
        [Thing.comment (str "c2") (str "bob") (str "reply") 2 (str "t1_c1") (str "") 0 false []])
        ⟨[], [], []⟩).comments
        = [] ++ ⟨str "c1", str "alice", str "hello", 1, str "t3_sub", str "", 0, false⟩ :: tail :=
  comment_appended_before_replies (str "c1") (str "alice") (str "hello") 1 (str "t3_sub")
    (str "") 0 false
    [Thing.comment (str "c2") (str "bob") (str "reply") 2 (str "t1_c1") (str "") 0 false []]
    ⟨[], [], []⟩ (by decide) (by decide)

/-- C2: on a 429 ("too many requests") response the request gate reads the
supplied retry delay — defaulting to 60 when the `Retry-After` header is
absent — sleeps for exactly that duration, and re-issues the identical
request exactly once more, recursing on the same contract; in particular a
429 with retry-after 1 followed by a success yields the success after
exactly one retry of the identical request and a single sleep of 1. -/
theorem request_retry_on_429 (req : Request) (ra : Option Nat) (rs : List Resp) (b : Str) :
    run_request req (Resp.tooMany ra :: rs)
      = ((run_request req rs).1, req :: (run_request req rs).2.1,
          ra.getD 60 :: (run_request req rs).2.2) ∧
    run_request req (Resp.tooMany none :: rs)
      = ((run_request req rs).1, req :: (run_request req rs).2.1,
          60 :: (run_request req rs).2.2) ∧
    run_request req [Resp.tooMany (some 1), Resp.ok b]
      = (RespOutcome.success b, [req, req], [1]) :=
  ⟨rfl, rfl, rfl⟩

mutual

theorem process_thing_no_mention (t : Thing) (st : WalkState) (m : Str)
    (hm : thing_mentions t m = false)
    (hc : ∀ c ∈ st.comments, c.id ≠ m) (hq : m ∉ st.more_ids) :
    (∀ c ∈ (process_thing t st).comments, c.id ≠ m) ∧ m ∉ (process_thing t st).more_ids := by
  cases t with
  | comment id author body cu pid pl sc sub replies =>
      rw [thing_mentions] at hm
      simp only [Bool.or_eq_false_iff, decide_eq_false_iff_not] at hm
      by_cases hg : id ≠ [] ∧ id ∉ st.fetched
      · have heq : process_thing (Thing.comment id author body cu pid pl sc sub replies) st
            = process_comment_listing replies
                ⟨st.comments ++ [⟨id, author, body, cu, pid, pl, sc, sub⟩],
                  st.more_ids, id :: st.fetched⟩ := by
          rw [process_thing, if_pos hg]
        rw [heq]
        refine process_listing_no_mention replies _ m hm.2 ?_ hq
        intro c hcm
        rcases List.mem_append.mp hcm with h | h
        · exact hc c h
        · simp only [List.mem_singleton] at h
          subst h
          exact hm.1
      · have heq : process_thing (Thing.comment id author body cu pid pl sc sub replies) st = st := by
          rw [process_thing, if_neg hg]
        rw [heq]
        exact ⟨hc, hq⟩
  | more children =>
      rw [thing_mentions] at hm
      simp only [decide_eq_false_iff_not] at hm
      have heq : process_thing (Thing.more children) st
          = ⟨st.comments,
              st.more_ids ++ children.filter (fun c => decide (c ≠ [] ∧ c ∉ st.fetched)),
              st.fetched⟩ := by
        rw [process_thing]
      rw [heq]
      refine ⟨hc, ?_⟩
      intro hmem
      rcases List.mem_append.mp hmem with h | h
      · exact hq h
      · exact hm (List.mem_of_mem_filter h)
  | other =>
      have heq : process_thing Thing.other st = st := by rw [process_thing]
      rw [heq]
      exact ⟨hc, hq⟩

theorem process_listing_no_mention (ts : List Thing) (st : WalkState) (m : Str)
    (hm : listing_mentions ts m = false)
    (hc : ∀ c ∈ st.comments, c.id ≠ m) (hq : m ∉ st.more_ids) :
    (∀ c ∈ (process_comment_listing ts st).comments, c.id ≠ m) ∧
      m ∉ (process_comment_listing ts st).more_ids := by
  cases ts with
  | nil =>
      have heq : process_comment_listing [] st = st := by rw [process_comment_listing]
      rw [heq]
      exact ⟨hc, hq⟩
  | cons t rest =>
      rw [listing_mentions] at hm
      simp only [Bool.or_eq_false_iff] at hm
      have heq : process_comment_listing (t :: rest) st
          = process_comment_listing rest (process_thing t st) := by
        rw [process_comment_listing]
      rw [heq]
      obtain ⟨hc1, hq1⟩ := process_thing_no_mention t st m hm.1 hc hq
      exact process_listing_no_mention rest (process_thing t st) m hm.2 hc1 hq1

end

/-- If an id is absent from the pending queue and the collected comments,
and no later scripted expansion response mentions it, the authenticated
expansion loop never reintroduces it. -/
theorem auth_expand_no_mention (script : List AuthResp) (st : WalkState) (m : Str)
    (hs : ∀ things, AuthResp.ok things ∈ script → listing_mentions things m = false)
    (hc : ∀ c ∈ st.comments, c.id ≠ m) (hq : m ∉ st.more_ids) :
    (∀ c ∈ (auth_expand script st).comments, c.id ≠ m) ∧
      m ∉ (auth_expand script st).more_ids := by
  induction script generalizing st with
  | nil => exact ⟨hc, hq⟩
  | cons r rest ih =>
      rw [auth_expand]
      by_cases hne : st.more_ids = []
      · rw [if_pos hne]
        exact ⟨hc, hq⟩
      · rw [if_neg hne]
        have hq1 : m ∉ st.more_ids.drop 100 := fun h => hq (List.mem_of_mem_drop h)
        cases r with
        | exn =>
            exact ih _ (fun things h => hs things (List.mem_cons_of_mem _ h)) hc hq1
        | okNoEnvelope =>
            exact ih _ (fun things h => hs things (List.mem_cons_of_mem _ h)) hc hq1
        | ok things =>
            obtain ⟨hc2, hq2⟩ :=
              process_listing_no_mention things ⟨st.comments, st.more_ids.drop 100, st.fetched⟩ m
                (hs things (List.mem_cons_self _ _)) hc hq1
            exact ih _ (fun ts h => hs ts (List.mem_cons_of_mem _ h)) hc2 hq2

/-- C4: in the authenticated expansion loop, a batch whose expansion call
raises is absorbed (the model's `exn` branch is the caught-and-logged
warning path): the loop proceeds to the next pending batch with exactly
the failed batch's markers popped and the comment list untouched; a marker
of the failed batch that is not also queued further back and is never
mentioned by a later response stays permanently absent from the pending
queue and contributes no comment to the result. -/
theorem auth_failed_batch_dropped (rest : List AuthResp) (st : WalkState) (m : Str)
    (hne : st.more_ids ≠ [])
    (hm : m ∈ st.more_ids.take 100)
    (hrest : m ∉ st.more_ids.drop 100)
    (hcom : ∀ c ∈ st.comments, c.id ≠ m)
    (hlater : ∀ things, AuthResp.ok things ∈ rest → listing_mentions things m = false) :
    auth_expand (AuthResp.exn :: rest) st
        = auth_expand rest ⟨st.comments, st.more_ids.drop 100, st.fetched⟩ ∧
    (∀ c ∈ (auth_expand (AuthResp.exn :: rest) st).comments, c.id ≠ m) ∧
    m ∉ (auth_expand (AuthResp.exn :: rest) st).more_ids := by
  have heq : auth_expand (AuthResp.exn :: rest) st
      = auth_expand rest ⟨st.comments, st.more_ids.drop 100, st.fetched⟩ := by
    rw [auth_expand, if_neg hne]
  refine ⟨heq, ?_⟩
  rw [heq]
  exact auth_expand_no_mention rest ⟨st.comments, st.more_ids.drop 100, st.fetched⟩ m
    hlater hcom hrest

/-- Witness for C4: one pending marker `m1`, whose batch fails, followed
by a successful expansion of unrelated content. -/
theorem auth_failed_batch_dropped_w :
    auth_expand (AuthResp.exn ::
          [AuthResp.ok [Thing.comment (str "c9") (str "carol") (str "text") 3 (str "t1_c1")
              (str "") 0 false []]])
        ⟨[], [str "m1"], []⟩
        = auth_expand
            [AuthResp.ok [Thing.comment (str "c9") (str "carol") (str "text") 3 (str "t1_c1")
                (str "") 0 false []]]
            ⟨[], ([str "m1"] : List Str).drop 100, []⟩ ∧
    (∀ c ∈ (auth_expand (AuthResp.exn ::
          [AuthResp.ok [Thing.comment (str "c9") (str "carol") (str "text") 3 (str "t1_c1")
              (str "") 0 false []]])
        ⟨[], [str "m1"], []⟩).comments, c.id ≠ str "m1") ∧
    str "m1" ∉ (auth_expand (AuthResp.exn ::
          [AuthResp.ok [Thing.comment (str "c9") (str "carol") (str "text") 3 (str "t1_c1")
              (str "") 0 false []]])
        ⟨[], [str "m1"], []⟩).more_ids :=
  auth_failed_batch_dropped
    [AuthResp.ok [Thing.comment (str "c9") (str "carol") (str "text") 3 (str "t1_c1")
        (str "") 0 false []]]
    ⟨[], [str "m1"], []⟩ (str "m1")
    (by decide) (by decide) (by decide) (by simp)
    (by
      intro things h
      simp only [List.mem_singleton] at h
      cases h
      simp [listing_mentions, thing_mentions, str])

/-- The `expansions_done` counter never exceeds the `max_expansions = 20`
cap: the loop guard admits another iteration only while it is below 20 and
only the envelope-carrying branch increments it. -/
theorem public_expand_processed_le (oracle : Nat → PubResp) (k : Nat) (st : WalkState)
    (done : Nat) (h : done ≤ 20) :
    (public_expand oracle k st done).processed ≤ 20 := by
  induction k, st, done using public_expand.induct oracle with
  | case1 k st done hguard =>
      rw [public_expand, dif_pos hguard]
      exact h
  | case2 k st done hguard horacle =>
      rw [public_expand, dif_neg hguard]
      simp only [horacle]
      omega
  | case3 k st done hguard horacle =>
      rw [public_expand, dif_neg hguard]
      simp only [horacle]
      omega
  | case4 k st done hguard st1 horacle ih =>
      rw [public_expand, dif_neg hguard]
      simp only [horacle]
      exact ih h
  | case5 k st done hguard st1 things horacle ih =>
      rw [public_expand, dif_neg hguard]
      simp only [horacle]
      exact ih (by omega)

/-- When every response a batch gets carries the `json`/`data` envelope (no
200 response without it), the number of batches the public loop issues is
bounded by the cap. -/
theorem public_expand_issued_le (oracle : Nat → PubResp)
    (hor : ∀ n, oracle n ≠ PubResp.okNoEnvelope) (k : Nat) (st : WalkState)
    (done : Nat) (h : done ≤ 20) :
    (public_expand oracle k st done).issued + done ≤ 20 := by
  induction k, st, done using public_expand.induct oracle with
  | case1 k st done hguard =>
      rw [public_expand, dif_pos hguard]
      simpa using h
  | case2 k st done hguard horacle =>
      rw [public_expand, dif_neg hguard]
      simp only [horacle]
      omega
  | case3 k st done hguard horacle =>
      rw [public_expand, dif_neg hguard]
      simp only [horacle]
      omega
  | case4 k st done hguard st1 horacle ih =>
      exact absurd horacle (hor k)
  | case5 k st done hguard st1 things horacle ih =>
      rw [public_expand, dif_neg hguard]
      simp only [horacle]
      have hih := ih (by omega)
      unfold st1 at hih
      omega

/-- Against an adversary that always answers 200 without the `json`/`data`
envelope, the public loop never increments `expansions_done`, so it keeps
issuing one batch per 100 pending markers until the queue is drained. -/
theorem public_expand_noenv_issued (oracle : Nat → PubResp)
    (hor : ∀ n, oracle n = PubResp.okNoEnvelope) (k : Nat) (st : WalkState)
    (done : Nat) (hd : done < 20) :
    (public_expand oracle k st done).issued = (st.more_ids.length + 99) / 100 := by
  induction k, st, done using public_expand.induct oracle with
  | case1 k st done hguard =>
      rw [public_expand, dif_pos hguard]
      rcases hguard with h | h
      · simp [h]
      · omega
  | case2 k st done hguard horacle =>
      rw [hor k] at horacle
      exact absurd horacle (by simp)
  | case3 k st done hguard horacle =>
      rw [hor k] at horacle
      exact absurd horacle (by simp)
  | case4 k st done hguard st1 horacle ih =>
      rw [public_expand, dif_neg hguard]
      simp only [horacle]
      have hlen : st.more_ids.length ≠ 0 := by
        intro h0
        exact hguard (Or.inl (List.length_eq_zero.mp h0))
      have hih := ih hd
      unfold st1 at hih
      simp only [List.length_drop] at hih
      omega
  | case5 k st done hguard st1 things horacle ih =>
      rw [hor k] at horacle
      exact absurd horacle (by simp)

/-- Counterexample for C3 as stated: with 2500 pending marker ids and batch
size 100, a server that always answers 200 with a JSON body lacking the
`json`/`data` envelope makes the public expansion loop issue 25 batches —
more than 20 — because only envelope-carrying responses increment
`expansions_done`. -/
theorem public_cap_exceeded_cex :
    (public_expand (fun (_ : Nat) => PubResp.okNoEnvelope) 0
        ⟨[], List.replicate 2500 (str "m"), []⟩ 0).issued = 25 ∧
    20 < (public_expand (fun (_ : Nat) => PubResp.okNoEnvelope) 0
        ⟨[], List.replicate 2500 (str "m"), []⟩ 0).issued := by
  have h := public_expand_noenv_issued (fun (_ : Nat) => PubResp.okNoEnvelope) (fun _ => rfl) 0
    ⟨[], List.replicate 2500 (str "m"), []⟩ 0 (by norm_num)
  have hm : ({ comments := [], more_ids := List.replicate 2500 (str "m"), fetched := [] }
      : WalkState).more_ids = List.replicate 2500 (str "m") := rfl
  rw [hm, List.length_replicate] at h
  have h25 : ((2500:Nat) + 99) / 100 = 25 := by norm_num
  rw [h25] at h
  exact ⟨h, h ▸ (by norm_num)⟩

/-- C3 (amended): the public expansion loop counts at most 20 *processed*
expansion batches against its cap (a 200 response without the `json`/`data`
envelope is not counted), and whenever no response is a 200 without the
envelope it issues at most 20 batches in total; the loop is total for every
response oracle (termination), absorbs failures instead of raising, and
returns only the comments resolved in the processed batches, discarding the
markers still pending when it stops. -/
theorem public_expansion_cap (oracle : Nat → PubResp) (k : Nat) (st : WalkState)
    (done : Nat) (h : done ≤ 20) :
    (public_expand oracle k st done).processed ≤ 20 ∧
    ((∀ n, oracle n ≠ PubResp.okNoEnvelope) →
      (public_expand oracle k st done).issued + done ≤ 20) ∧
    public_get_all_comments [] oracle = (public_expand oracle 0
        (process_comment_listing [] ⟨[], [], []⟩) 0).state.comments :=
  ⟨public_expand_processed_le oracle k st done h,
    fun hor => public_expand_issued_le oracle hor k st done h,
    rfl⟩

/-- Witness for C3 (amended) against a server that fails every expansion
batch outright, on the 2500-marker queue from the specification's
instance. -/
theorem public_expansion_cap_w :
    (public_expand (fun (_ : Nat) => PubResp.httpFail) 0
        ⟨[], List.replicate 2500 (str "m"), []⟩ 0).processed ≤ 20 ∧
    ((∀ n, (fun (_ : Nat) => PubResp.httpFail) n ≠ PubResp.okNoEnvelope) →
      (public_expand (fun (_ : Nat) => PubResp.httpFail) 0
          ⟨[], List.replicate 2500 (str "m"), []⟩ 0).issued + 0 ≤ 20) ∧
    public_get_all_comments [] (fun (_ : Nat) => PubResp.httpFail)
      = (public_expand (fun (_ : Nat) => PubResp.httpFail) 0
          (process_comment_listing [] ⟨[], [], []⟩) 0).state.comments :=
  public_expansion_cap (fun (_ : Nat) => PubResp.httpFail) 0
    ⟨[], List.replicate 2500 (str "m"), []⟩ 0 (by norm_num)

/-- Everything `extract_qa_pairs` established about a comment before
admitting it as an answer: the author gate passed (non-empty author whose
lowercased name is a target), the deleted/removed filter passed unless
`include_deleted`, and the parent reference is a `t1_` (comment) one. -/
def answer_ok (al : List Str) (incl : Bool) (a : Comment) : Prop :=
  a.author ≠ [] ∧ strLower a.author ∈ al ∧
    (incl = false → a.body ≠ str "[deleted]" ∧ a.body ≠ str "[removed]") ∧
    (str "t1_").isPrefixOf a.parent_id = true

/-- Invariant of every group in the correlator's accumulator: the question
passed the deleted/removed filter unless `include_deleted`, and every
answer satisfies `answer_ok`. -/
def pair_ok (al : List Str) (incl : Bool) (qa : QAPair) : Prop :=
  (incl = false → qa.question.body ≠ str "[deleted]" ∧ qa.question.body ≠ str "[removed]") ∧
    ∀ a ∈ qa.answers, answer_ok al incl a

theorem add_answer_pair_ok {al : List Str} {incl : Bool} {pairs : List QAPair}
    {parent c : Comment}
    (hp : ∀ qa ∈ pairs, pair_ok al incl qa)
    (hq : incl = false → parent.body ≠ str "[deleted]" ∧ parent.body ≠ str "[removed]")
    (hc : answer_ok al incl c) :
    ∀ qa ∈ add_answer pairs parent c, pair_ok al incl qa := by
  revert hp
  induction pairs with
  | nil =>
      intro _ qa hqa
      rw [add_answer] at hqa
      simp only [List.mem_singleton] at hqa
      subst hqa
      exact ⟨hq, by simpa using hc⟩
  | cons qa0 rest ih =>
      intro hp qa hqa
      rw [add_answer] at hqa
      by_cases h0 : qa0.question.id = parent.id
      · rw [if_pos h0] at hqa
        rcases List.mem_cons.mp hqa with h | h
        · subst h
          obtain ⟨hq0, ha0⟩ := hp qa0 (List.mem_cons_self _ _)
          refine ⟨hq0, ?_⟩
          intro a ha
          rcases List.mem_append.mp ha with h | h
          · exact ha0 a h
          · simp only [List.mem_singleton] at h
            subst h
            exact hc
        · exact hp qa (List.mem_cons_of_mem _ h)
      · rw [if_neg h0] at hqa
        rcases List.mem_cons.mp hqa with h | h
        · subst h
          exact hp _ (List.mem_cons_self _ _)
        · exact ih (fun q hql => hp q (List.mem_cons_of_mem _ hql)) qa h

theorem qa_step_pair_ok {comments : List Comment} {al : List Str} {incl : Bool}
    {pairs : List QAPair} {c : Comment}
    (hp : ∀ qa ∈ pairs, pair_ok al incl qa) :
    ∀ qa ∈ qa_step comments al incl pairs c, pair_ok al incl qa := by
  rw [qa_step]
  by_cases h1 : c.author ≠ [] ∧ strLower c.author ∈ al
  · rw [if_pos h1]
    by_cases h2 : ¬incl = true ∧ (c.body = str "[deleted]" ∨ c.body = str "[removed]")
    · rw [if_pos h2]
      exact hp
    · rw [if_neg h2]
      by_cases h3 : (str "t1_").isPrefixOf c.parent_id = true
      · rw [if_pos h3]
        cases hfind : comment_map_find comments (c.parent_id.drop 3) with
        | none =>
            dsimp only
            exact hp
        | some parent =>
            dsimp only
            by_cases h4 : ¬incl = true ∧
                (parent.body = str "[deleted]" ∨ parent.body = str "[removed]")
            · rw [if_pos h4]
              exact hp
            · rw [if_neg h4]
              refine add_answer_pair_ok hp ?_ ?_
              · intro hincl
                subst hincl
                push_neg at h4
                have := h4 (by simp)
                exact ⟨this.1, this.2⟩
              · refine ⟨h1.1, h1.2, ?_, h3⟩
                intro hincl
                subst hincl
                push_neg at h2
                have := h2 (by simp)
                exact ⟨this.1, this.2⟩
      · rw [if_neg h3]
        exact hp
  · rw [if_neg h1]
    exact hp

theorem foldl_qa_step_pair_ok (comments : List Comment) (al : List Str) (incl : Bool)
    (cs : List Comment) (pairs : List QAPair)
    (hp : ∀ qa ∈ pairs, pair_ok al incl qa) :
    ∀ qa ∈ cs.foldl (qa_step comments al incl) pairs, pair_ok al incl qa := by
  induction cs generalizing pairs with
  | nil => simpa using hp
  | cons c rest ih =>
      rw [List.foldl_cons]
      exact ih (qa_step comments al incl pairs c) (qa_step_pair_ok hp)

/-- Every group in the correlator's output comes from a group of the
collection loop's accumulator, with the same question and with its answers
re-sorted. -/
theorem extract_mem_pairs {comments : List Comment} {authors : List Str} {incl : Bool}
    {qa : QAPair} (h : qa ∈ extract_qa_pairs comments authors incl) :
    ∃ qa0 ∈ comments.foldl (qa_step comments (authors.map strLower) incl) [],
      qa.question = qa0.question ∧ qa.answers = List.insertionSort ans_le qa0.answers := by
  rw [extract_qa_pairs] at h
  simp only [List.mem_map] at h
  obtain ⟨qa0, hqa0, hEq⟩ := h
  rw [List.mem_insertionSort] at hqa0
  exact ⟨qa0, hqa0, by rw [← hEq], by rw [← hEq]⟩

/-- Every group of the correlator's output satisfies the collection-time
invariant `pair_ok` (with answer membership transported through the
answer sort). -/
theorem extract_pair_ok {comments : List Comment} {authors : List Str} {incl : Bool}
    {qa : QAPair} (h : qa ∈ extract_qa_pairs comments authors incl) :
    (incl = false → qa.question.body ≠ str "[deleted]" ∧ qa.question.body ≠ str "[removed]") ∧
      ∀ a ∈ qa.answers, answer_ok (authors.map strLower) incl a := by
  obtain ⟨qa0, hqa0, hq, ha⟩ := extract_mem_pairs h
  have hok := foldl_qa_step_pair_ok comments (authors.map strLower) incl comments []
    (by simp) qa0 hqa0
  refine ⟨by rw [hq]; exact hok.1, ?_⟩
  intro a haa
  rw [ha, List.mem_insertionSort] at haa
  exact hok.2 a haa

/-- A string starting with `t1_` cannot also start with `t3_`. -/
theorem t1_not_t3 (s : Str) (h : (str "t1_").isPrefixOf s = true) :
    (str "t3_").isPrefixOf s = false := by
  rw [ List.isPrefixOf_iff_prefix] at h
  obtain ⟨t, ht⟩ := h
  have hs : s = 't' :: '1' :: '_' :: t := by
    rw [← ht]; rfl
  subst hs
  simp [List.isPrefixOf, str]

/-- Fixture comments for the specification's two-question scenario. -/
def cQ1 : Comment := ⟨str "q1", str "mod", str "what about x?", 100, str "t3_sub", str "", 0, false⟩

def cQ2 : Comment := ⟨str "q2", str "mod", str "what about y?", 50, str "t3_sub", str "", 0, false⟩

def cA1 : Comment := ⟨str "a1", str "target", str "answer one", 150, str "t1_q1", str "", 0, false⟩

def cA2 : Comment := ⟨str "a2", str "target", str "answer two", 120, str "t1_q2", str "", 0, false⟩

/-- C5: the correlator's output groups are sorted ascending by the
question's creation timestamp and each group's answers ascending by their
creation timestamps; on the specification's instance — Q1 at t=100 and Q2
at t=50, each answered once by a target author — the output is
[group(Q2), group(Q1)]. -/
theorem extract_qa_pairs_sorted (comments : List Comment) (authors : List Str) (incl : Bool) :
    List.Pairwise qa_le (extract_qa_pairs comments authors incl) ∧
    (∀ qa ∈ extract_qa_pairs comments authors incl, List.Pairwise ans_le qa.answers) ∧
    extract_qa_pairs [cQ1, cQ2, cA1, cA2] [str "target"] false
      = [⟨cQ2, [cA2]⟩, ⟨cQ1, [cA1]⟩] := by
  refine ⟨?_, ?_, by decide⟩
  · rw [extract_qa_pairs]
    rw [List.pairwise_map]
    exact (List.sorted_insertionSort qa_le _).imp (fun h => h)
  · intro qa hqa
    rw [extract_qa_pairs] at hqa
    simp only [List.mem_map] at hqa
    obtain ⟨qa0, -, hEq⟩ := hqa
    rw [← hEq]
    exact List.sorted_insertionSort ans_le _

/-- Witness for C5 at the specification's scenario input. -/
theorem extract_qa_pairs_sorted_w :
    List.Pairwise qa_le (extract_qa_pairs [cQ1, cQ2, cA1, cA2] [str "target"] false) ∧
    (∀ qa ∈ extract_qa_pairs [cQ1, cQ2, cA1, cA2] [str "target"] false,
        List.Pairwise ans_le qa.answers) ∧
    extract_qa_pairs [cQ1, cQ2, cA1, cA2] [str "target"] false
      = [⟨cQ2, [cA2]⟩, ⟨cQ1, [cA1]⟩] :=
  extract_qa_pairs_sorted [cQ1, cQ2, cA1, cA2] [str "target"] false

/-- C6: a target-author comment whose parent reference is the submission
itself (a `t3_`-tagged parent id) is never admitted as an answer: every
answer in the correlator's output carries a `t1_` (comment) parent
reference, hence not a `t3_` one. -/
theorem top_level_never_answer (comments : List Comment) (authors : List Str) (incl : Bool) :
    ∀ qa ∈ extract_qa_pairs comments authors incl, ∀ a ∈ qa.answers,
      (str "t1_").isPrefixOf a.parent_id = true ∧
        (str "t3_").isPrefixOf a.parent_id = false := by
  intro qa hqa a ha
  have h := (extract_pair_ok hqa).2 a ha
  exact ⟨h.2.2.2, t1_not_t3 _ h.2.2.2⟩

/-- Witness for C6 on the scenario input: the answer recorded for Q2
carries a `t1_` parent reference. -/
theorem top_level_never_answer_w :
    (str "t1_").isPrefixOf cA2.parent_id = true ∧
      (str "t3_").isPrefixOf cA2.parent_id = false :=
  top_level_never_answer [cQ1, cQ2, cA1, cA2] [str "target"] false
    ⟨cQ2, [cA2]⟩ (by decide) cA2 (by decide)

/-- Deleted-question fixture: a question whose body is the deleted
sentinel. -/
def dQ : Comment := ⟨str "dq", str "mod", str "[deleted]", 10, str "t3_sub", str "", 0, false⟩

/-- Deleted-answer fixture: a target-author reply to `dQ` whose body is the
removed sentinel. -/
def dA : Comment := ⟨str "da", str "target", str "[removed]", 20, str "t1_dq", str "", 0, false⟩

/-- C7: with `include_deleted = false` no comment whose body is
`"[deleted]"` or `"[removed]"` appears in the output, neither as a question
nor as an answer; with `include_deleted = true` such comments are admitted
in both roles, as the concrete deleted-question/removed-answer input
shows. -/
theorem deleted_comments_filtered (comments : List Comment) (authors : List Str) :
    (∀ qa ∈ extract_qa_pairs comments authors false,
      (qa.question.body ≠ str "[deleted]" ∧ qa.question.body ≠ str "[removed]") ∧
        ∀ a ∈ qa.answers, a.body ≠ str "[deleted]" ∧ a.body ≠ str "[removed]") ∧
    extract_qa_pairs [dQ, dA] [str "target"] true = [⟨dQ, [dA]⟩] ∧
    extract_qa_pairs [dQ, dA] [str "target"] false = [] := by
  refine ⟨?_, by decide, by decide⟩
  intro qa hqa
  have h := extract_pair_ok hqa
  refine ⟨h.1 rfl, ?_⟩
  intro a ha
  exact (h.2 a ha).2.2.1 rfl

/-- Witness for C7 at the concrete deleted-question input (empty output in
the filtering direction, full group in the including direction). -/
theorem deleted_comments_filtered_w :
    (∀ qa ∈ extract_qa_pairs [dQ, dA] [str "target"] false,
      (qa.question.body ≠ str "[deleted]" ∧ qa.question.body ≠ str "[removed]") ∧
        ∀ a ∈ qa.answers, a.body ≠ str "[deleted]" ∧ a.body ≠ str "[removed]") ∧
    extract_qa_pairs [dQ, dA] [str "target"] true = [⟨dQ, [dA]⟩] ∧
    extract_qa_pairs [dQ, dA] [str "target"] false = [] :=
  deleted_comments_filtered [dQ, dA] [str "target"]

/-- Empty-author fixtures: a question and a reply whose author field is
empty, targeted by an author list containing the empty string. -/
def eQ : Comment := ⟨str "eq1", str "mod", str "question", 10, str "t3_sub", str "", 0, false⟩

/-- Reply to `eQ` with an empty author. -/
def eA : Comment := ⟨str "ea1", [], str "anon answer", 20, str "t1_eq1", str "", 0, false⟩

/-- C10: a comment with an empty (falsy) author is never selected as an
answer, even when the empty string itself is in the target author list —
the author gate short-circuits before the membership test; concretely, an
empty-author reply with target list [""] yields no groups. -/
theorem empty_author_never_answer (comments : List Comment) (authors : List Str) (incl : Bool) :
    (∀ qa ∈ extract_qa_pairs comments authors incl, ∀ a ∈ qa.answers, a.author ≠ []) ∧
    extract_qa_pairs [eQ, eA] [[]] false = [] := by
  refine ⟨?_, by decide⟩
  intro qa hqa a ha
  exact ((extract_pair_ok hqa).2 a ha).1

/-- Witness for C10: the answer of the scenario input has a non-empty
author. -/
theorem empty_author_never_answer_w :
    (cA2.author ≠ []) ∧ extract_qa_pairs [eQ, eA] [[]] false = [] :=
  ⟨(empty_author_never_answer [cQ1, cQ2, cA1, cA2] [str "target"] false).1
      ⟨cQ2, [cA2]⟩ (by decide) cA2 (by decide),
    (empty_author_never_answer [] [] false).2⟩

/-- Lemma: `add_answer` either appends the answer to the (first) existing group of
the parent question — leaving the list of question ids untouched — or, when
no group for that question exists, appends one fresh group at the end. -/
theorem add_answer_question_ids (pairs : List QAPair) (parent c : Comment) :
    (add_answer pairs parent c).map (fun qa => qa.question.id)
      = if parent.id ∈ pairs.map (fun qa => qa.question.id) then
          pairs.map (fun qa => qa.question.id)
        else pairs.map (fun qa => qa.question.id) ++ [parent.id] := by
  induction pairs with
  | nil => simp [add_answer]
  | cons qa0 rest ih =>
      rw [add_answer]
      by_cases h0 : qa0.question.id = parent.id
      · rw [if_pos h0]
        have hmem : parent.id ∈ (qa0 :: rest).map (fun qa => qa.question.id) := by
          simp [h0.symm]
        rw [if_pos hmem]
        simp [h0]
      · rw [if_neg h0]
        simp only [List.map_cons]
        rw [ih]
        by_cases hr : parent.id ∈ rest.map (fun qa => qa.question.id)
        · rw [if_pos hr, if_pos (List.mem_cons_of_mem _ hr)]
        · rw [if_neg hr, if_neg ?_]
          · simp
          · intro hmem
            rcases List.mem_cons.mp hmem with h | h
            · exact h0 h.symm
            · exact hr h

theorem qa_step_question_ids (comments : List Comment) (al : List Str) (incl : Bool)
    (pairs : List QAPair) (c : Comment) :
    (qa_step comments al incl pairs c).map (fun qa => qa.question.id)
        = pairs.map (fun qa => qa.question.id) ∨
      ∃ q, (qa_step comments al incl pairs c).map (fun qa => qa.question.id)
          = pairs.map (fun qa => qa.question.id) ++ [q] ∧
        q ∉ pairs.map (fun qa => qa.question.id) := by
  rw [qa_step]
  by_cases h1 : c.author ≠ [] ∧ strLower c.author ∈ al
  · rw [if_pos h1]
    by_cases h2 : ¬incl = true ∧ (c.body = str "[deleted]" ∨ c.body = str "[removed]")
    · rw [if_pos h2]; exact Or.inl rfl
    · rw [if_neg h2]
      by_cases h3 : (str "t1_").isPrefixOf c.parent_id = true
      · rw [if_pos h3]
        cases hfind : comment_map_find comments (c.parent_id.drop 3) with
        | none => exact Or.inl rfl
        | some parent =>
            dsimp only
            by_cases h4 : ¬incl = true ∧
                (parent.body = str "[deleted]" ∨ parent.body = str "[removed]")
            · rw [if_pos h4]; exact Or.inl rfl
            · rw [if_neg h4]
              rw [add_answer_question_ids]
              by_cases hmem : parent.id ∈ pairs.map (fun qa => qa.question.id)
              · rw [if_pos hmem]; exact Or.inl rfl
              · rw [if_neg hmem]; exact Or.inr ⟨parent.id, rfl, hmem⟩
      · rw [if_neg h3]; exact Or.inl rfl
  · rw [if_neg h1]; exact Or.inl rfl

theorem foldl_qa_step_nodup (comments : List Comment) (al : List Str) (incl : Bool)
    (cs : List Comment) (pairs : List QAPair)
    (hnd : (pairs.map (fun qa => qa.question.id)).Nodup) :
    ((cs.foldl (qa_step comments al incl) pairs).map (fun qa => qa.question.id)).Nodup := by
  induction cs generalizing pairs with
  | nil => simpa using hnd
  | cons c rest ih =>
      rw [List.foldl_cons]
      refine ih (qa_step comments al incl pairs c) ?_
      rcases qa_step_question_ids comments al incl pairs c with h | ⟨q, h, hq⟩
      · rw [h]; exact hnd
      · rw [h]
        rw [List.nodup_append]
        refine ⟨hnd, List.nodup_singleton _, ?_⟩
        intro a ha hb
        simp only [List.mem_singleton] at hb
        subst hb
        exact hq ha

/-- C9: the correlator's output has at most one group per distinct question
id (pairwise distinct question ids), because a second answer to an already
seen question is appended to that question's existing group — the
`add_answer` characterization — instead of opening a new group. -/
theorem unique_group_per_question (comments : List Comment) (authors : List Str) (incl : Bool) :
    List.Pairwise (fun a b => a.question.id ≠ b.question.id)
        (extract_qa_pairs comments authors incl) ∧
    ∀ (pairs : List QAPair) (parent c : Comment),
      (add_answer pairs parent c).map (fun qa => qa.question.id)
        = if parent.id ∈ pairs.map (fun qa => qa.question.id) then
            pairs.map (fun qa => qa.question.id)
          else pairs.map (fun qa => qa.question.id) ++ [parent.id] := by
  refine ⟨?_, add_answer_question_ids⟩
  have hnd := foldl_qa_step_nodup comments (authors.map strLower) incl comments [] (by simp)
  have hpw : List.Pairwise (fun a b : QAPair => a.question.id ≠ b.question.id)
      (comments.foldl (qa_step comments (authors.map strLower) incl) []) := by
    have := List.pairwise_map.mp hnd
    exact this
  have hperm := List.perm_insertionSort qa_le
    (comments.foldl (qa_step comments (authors.map strLower) incl) [])
  have hsorted : List.Pairwise (fun a b : QAPair => a.question.id ≠ b.question.id)
      (List.insertionSort qa_le
        (comments.foldl (qa_step comments (authors.map strLower) incl) [])) :=
    (hperm.pairwise_iff (fun h => h.symm)).mpr hpw
  rw [extract_qa_pairs]
  rw [List.pairwise_map]
  exact hsorted.imp (fun h => h)

/-- Witness for C9: on an input where the target author answers the same
question twice, the output is the single group with both answers. -/
theorem unique_group_per_question_w :
    List.Pairwise (fun a b => a.question.id ≠ b.question.id)
        (extract_qa_pairs [cQ1, cA1,
          ⟨str "a3", str "target", str "third", 160, str "t1_q1", str "", 0, false⟩]
          [str "target"] false) ∧
    ∀ (pairs : List QAPair) (parent c : Comment),
      (add_answer pairs parent c).map (fun qa => qa.question.id)
        = if parent.id ∈ pairs.map (fun qa => qa.question.id) then
            pairs.map (fun qa => qa.question.id)
          else pairs.map (fun qa => qa.question.id) ++ [parent.id] :=
  unique_group_per_question [cQ1, cA1,
    ⟨str "a3", str "target", str "third", 160, str "t1_q1", str "", 0, false⟩]
    [str "target"] false
